import Mathlib

/-!
Shallow embedding of the duplicate-resolution engine and sync client of the
SpotifyTools-CLI repository (src/spotify_tools/normalize.py, duplicates.py,
client.py), together with theorems settling the frozen claims about it.

Modelling conventions:
* Python strings are `String`/`List Char`; machine integers are `Int`/`Nat`.
* Python `dict`s used as JSON records become structures with `Option` fields
  (an absent key is `none`); `dict.get(k) or d` becomes `Option.getD`.
* Python `dict`s used as insertion-ordered maps become association lists.
* Python `set`s of strings become duplicate-free lists maintained in insertion
  order.  CPython iterates a set in hash order, which is not insertion order,
  so only order-insensitive facts (membership, `Nodup`) are proved about data
  that flows through a set.
* `unicodedata.normalize("NFKC", ·)` is modelled by `nfkc` below:
  compatibility decomposition and canonical composition, implemented exactly
  for the kana blocks (the only part of the repertoire this development
  quantifies over where NFKC is not the identity) and as the identity on the
  remaining modelled characters (ASCII, CJK ideographs), where NFKC is the
  identity.  The NFKD/NFC pair inside `_strip_accents_latin_only` is
  modelled as the identity, exact on the ASCII strings that reach it here.
* `str.casefold` is modelled by `Char.toLower` applied characterwise, exact on
  ASCII and on CJK characters (which case folding leaves unchanged).
-/

namespace SpotifyTools

/-! ## normalize.py: character classes -/

/-- Whitespace characters recognised by the regex class `\s` (ASCII fragment,
which covers every string of this development). -/
def isSpaceChar (c : Char) : Bool :=
  let o := c.toNat
  o = 0x20 || o = 0x9 || o = 0xA || o = 0xD || o = 0xB || o = 0xC

/-- Embeds `_has_cjk`'s per-character test: Hiragana/Katakana (U+3040–U+30FF),
CJK Unified Ideographs (U+4E00–U+9FFF), CJK Extension A (U+3400–U+4DBF). -/
def isCJKChar (c : Char) : Bool :=
  let o := c.toNat
  (0x3040 ≤ o && o ≤ 0x30FF) || (0x4E00 ≤ o && o ≤ 0x9FFF) ||
    (0x3400 ≤ o && o ≤ 0x4DBF)

/-- Embeds `_has_cjk`. -/
def has_cjk (s : List Char) : Bool :=
  s.any isCJKChar

/-- Characters of the class `_PUNCT_RE`:
`[‘’“”—\-—–:,.;!?'\"]` (the pattern names U+2014
twice, via the escape and via the literal em dash, and also contains the
en dash U+2013). -/
def isPunctChar (c : Char) : Bool :=
  let o := c.toNat
  o = 0x2018 || o = 0x2019 || o = 0x201C || o = 0x201D || o = 0x2014 ||
    o = 0x2013 || o = 0x2D || o = 0x3A || o = 0x2C || o = 0x2E || o = 0x3B ||
    o = 0x21 || o = 0x3F || o = 0x27 || o = 0x22

/-- Regex `\d` (ASCII fragment). -/
def isDigitChar (c : Char) : Bool :=
  '0' ≤ c && c ≤ '9'

/-! ## normalize.py: the marker-stripping regex `_MARKER_RE`

The alternation of the six `_MARKER_PATTERNS`, compiled with `re.IGNORECASE`
and applied by `re.sub` (leftmost match, alternatives tried in order, greedy
quantifiers).  Each pattern is embedded as a deterministic matcher on a
`List Char` suffix returning the remaining suffix on success; the patterns
back-track only in the places analysed in the comments below. -/

/-- Case-insensitive literal match (`re.IGNORECASE`; the pattern literals are
all lowercase ASCII).  Returns the remaining suffix. -/
def matchLit : List Char → List Char → Option (List Char)
  | [], cs => some cs
  | _ :: _, [] => none
  | p :: ps, c :: cs => if c.toLower = p then matchLit ps cs else none

/-- Greedy `\s*`. -/
def dropSpaces (cs : List Char) : List Char :=
  cs.dropWhile isSpaceChar

/-- Greedy `(?:lit)?`: consume the literal if present, else consume nothing.
Sound here because everything after such a group in the patterns is optional
or cannot start with the literal's first character. -/
def matchOptLit (p : List Char) (cs : List Char) : List Char :=
  (matchLit p cs).getD cs

/-- Greedy `(?:\d{2,4})?` at the end of a pattern: take up to four digits;
if fewer than two are available the group matches the empty string. -/
def matchDigits24 (cs : List Char) : List Char :=
  let run := (cs.takeWhile isDigitChar).length
  let m := min run 4
  if 2 ≤ m then cs.drop m else cs

/-- Greedy `[^x]*` followed by the literal `x`: succeed at the first
occurrence of `x`, returning the suffix after it (the class can never match
`x`, so no back-tracking can help). -/
def upToChar (x : Char) : List Char → Option (List Char)
  | [] => none
  | c :: cs => if c.toLower = x then some cs else upToChar x cs

/-- Pattern `\s*-\s*remaster(?:ed)?\s*(?:\d{2,4})?`. -/
def branch1 (cs : List Char) : Option (List Char) :=
  match matchLit ['-'] (dropSpaces cs) with
  | none => none
  | some cs =>
    match matchLit "remaster".data (dropSpaces cs) with
    | none => none
    | some cs => some (matchDigits24 (dropSpaces (matchOptLit "ed".data cs)))

/-- Pattern `\s*-\s*(?:mono|stereo)\s*version`. -/
def branch2 (cs : List Char) : Option (List Char) :=
  match matchLit ['-'] (dropSpaces cs) with
  | none => none
  | some cs =>
    let cs := dropSpaces cs
    match (matchLit "mono".data cs).orElse (fun _ => matchLit "stereo".data cs) with
    | none => none
    | some cs => matchLit "version".data (dropSpaces cs)

/-- Pattern `\s*-\s*(?:radio|clean|explicit)\s*edit`. -/
def branch3 (cs : List Char) : Option (List Char) :=
  match matchLit ['-'] (dropSpaces cs) with
  | none => none
  | some cs =>
    let cs := dropSpaces cs
    match ((matchLit "radio".data cs).orElse
        (fun _ => matchLit "clean".data cs)).orElse
        (fun _ => matchLit "explicit".data cs) with
    | none => none
    | some cs => matchLit "edit".data (dropSpaces cs)

/-- Sub-pattern `(?:feat\.?|featuring) `: try `feat` with the optional dot,
back-track on the dot, then try `featuring`; the trailing literal space
belongs to the surrounding pattern and forces the back-tracking. -/
def featAlt (cs : List Char) : Option (List Char) :=
  match matchLit "feat".data cs with
  | none => none
  | some cs1 =>
    match matchLit [' '] (matchOptLit ['.'] cs1) with
    | some r => some r
    | none =>
      match matchLit [' '] cs1 with
      | some r => some r
      | none =>
        match matchLit "featuring".data cs with
        | none => none
        | some cs2 => matchLit [' '] cs2

/-- Pattern `\s*\((?:feat\.?|featuring) [^)]*\)`. -/
def branch4 (cs : List Char) : Option (List Char) :=
  match matchLit ['('] (dropSpaces cs) with
  | none => none
  | some cs =>
    match featAlt cs with
    | none => none
    | some cs => upToChar ')' cs

/-- Pattern `\s*\[(?:feat\.?|featuring) [^]]*\]`. -/
def branch5 (cs : List Char) : Option (List Char) :=
  match matchLit ['['] (dropSpaces cs) with
  | none => none
  | some cs =>
    match featAlt cs with
    | none => none
    | some cs => upToChar ']' cs

/-- Pattern `\s*\((?:version|edit|remaster[^)]*)\)`. -/
def branch6 (cs : List Char) : Option (List Char) :=
  match matchLit ['('] (dropSpaces cs) with
  | none => none
  | some cs =>
    match matchLit "version".data cs with
    | some cs1 =>
      match matchLit [')'] cs1 with
      | some r => some r
      | none => branch6Rest cs
    | none => branch6Rest cs
where
  /-- Remaining alternatives `edit\)` and `remaster[^)]*\)` at the position
  just after the opening parenthesis. -/
  branch6Rest (cs : List Char) : Option (List Char) :=
    match matchLit "edit".data cs with
    | some cs1 =>
      match matchLit [')'] cs1 with
      | some r => some r
      | none =>
        match matchLit "remaster".data cs with
        | none => none
        | some cs2 => upToChar ')' cs2
    | none =>
      match matchLit "remaster".data cs with
      | none => none
      | some cs2 => upToChar ')' cs2

/-- One attempt of `_MARKER_RE` at the current position: the six alternatives
in the order they are joined in `_MARKER_PATTERNS`. -/
def tryMarker (cs : List Char) : Option (List Char) :=
  ((((branch1 cs).orElse (fun _ => branch2 cs)).orElse
      (fun _ => branch3 cs)).orElse
      (fun _ => (branch4 cs).orElse (fun _ => branch5 cs))).orElse
      (fun _ => branch6 cs)

/-- Scanning loop of `_MARKER_RE.sub("", s)`: at each position try the
pattern; on a match drop the matched characters and continue after them,
otherwise keep the character and advance by one.  Every match consumes at
least one character, so fuel equal to the length of the string suffices. -/
def markerSubGo : Nat → List Char → List Char
  | 0, cs => cs
  | _ + 1, [] => []
  | n + 1, c :: rest =>
    match tryMarker (c :: rest) with
    | some remaining => markerSubGo n remaining
    | none => c :: markerSubGo n rest

/-- Embeds `_MARKER_RE.sub("", s)`. -/
def markerSub (cs : List Char) : List Char :=
  markerSubGo cs.length cs

/-! ## normalize.py: remaining steps -/

/-- Embeds `_PUNCT_RE.sub(" ", s)`: each punctuation character becomes one
space. -/
def punctSub (cs : List Char) : List Char :=
  cs.map fun c => if isPunctChar c then ' ' else c

/-- Embeds `s.replace("&", " and ")`. -/
def expandAmp (cs : List Char) : List Char :=
  cs.flatMap fun c => if c = '&' then " and ".data else [c]

/-- Embeds `_strip_accents_latin_only`.  The function NFKD-decomposes, drops
the combining characters whose Unicode name contains "LATIN" — those are
exactly U+0363–U+036F (COMBINING LATIN SMALL LETTER …); the ordinary
combining accents U+0300–U+0362 have no "LATIN" in their names and are kept —
and NFC-recomposes.  With NFKD/NFC the identity on the repertoire of this
development, the residue is the filter below. -/
def stripAccentsLatinOnly (cs : List Char) : List Char :=
  cs.filter fun c => !(0x363 ≤ c.toNat && c.toNat ≤ 0x36F)

/-- Embeds `_WHITESPACE_RE.sub(" ", s)`: every maximal run of whitespace
becomes a single space. -/
def squeezeWs : List Char → List Char
  | [] => []
  | [c] => if isSpaceChar c then [' '] else [c]
  | c :: d :: rest =>
    if isSpaceChar c && isSpaceChar d then squeezeWs (d :: rest)
    else (if isSpaceChar c then ' ' else c) :: squeezeWs (d :: rest)

/-- Embeds `str.strip()` (whitespace trim at both ends). -/
def pyStrip (cs : List Char) : List Char :=
  ((cs.dropWhile isSpaceChar).reverse.dropWhile isSpaceChar).reverse

/-! ## normalize.py: the NFKC step

`normalize_title` first applies `unicodedata.normalize("NFKC", title)`.  The
model below implements the part of NFKC that is not the identity on the
character repertoire this development reasons about (ASCII and the CJK
ranges tested by `_has_cjk`): the compatibility decompositions inside the
kana blocks (U+309B/U+309C to space + combining mark, the ligatures U+309F
and U+30FF to their two-kana spellings) and the canonical composition of a
kana base with a combining voiced/semi-voiced sound mark (か + U+3099 → が).
Every other character of those ranges has no decomposition and combining
class 0, so NFKC is the identity on it, as in the model.  Characters outside
these ranges (e.g. halfwidth forms, accented Latin) are modelled as
NFKC-fixed; no theorem quantifies over them. -/

/-- Compatibility decompositions of the kana blocks: U+309B ゛ → space +
U+3099, U+309C ゜ → space + U+309A, U+309F ゟ → よ り, U+30FF ヿ → コ ト.
All other modelled characters decompose to themselves (precomposed voiced
kana canonically decompose but NFC recomposes them, a net identity, so the
model keeps them whole). -/
def nfkcDecomp (c : Char) : List Char :=
  if c.toNat = 0x309B then [' ', Char.ofNat 0x3099]
  else if c.toNat = 0x309C then [' ', Char.ofNat 0x309A]
  else if c.toNat = 0x309F then [Char.ofNat 0x3088, Char.ofNat 0x308A]
  else if c.toNat = 0x30FF then [Char.ofNat 0x30B3, Char.ofNat 0x30C8]
  else [c]

/-- Canonical composition of a kana base with the combining voiced sound
mark U+3099 or semi-voiced sound mark U+309A (the only combining characters
of the modelled repertoire): the voiced form is base+1 for the か/さ/た/は
rows and iteration marks, う/ウ gain U+3094/U+30F4, the ワ row gains +8, and
the semi-voiced form is base+2 for the は rows. -/
def kanaCompose (b m : Char) : Option Char :=
  if m.toNat = 0x3099 then
    if b.toNat ∈ [0x304B, 0x304D, 0x304F, 0x3051, 0x3053,
        0x3055, 0x3057, 0x3059, 0x305B, 0x305D,
        0x305F, 0x3061, 0x3064, 0x3066, 0x3068,
        0x306F, 0x3072, 0x3075, 0x3078, 0x307B, 0x309D,
        0x30AB, 0x30AD, 0x30AF, 0x30B1, 0x30B3,
        0x30B5, 0x30B7, 0x30B9, 0x30BB, 0x30BD,
        0x30BF, 0x30C1, 0x30C4, 0x30C6, 0x30C8,
        0x30CF, 0x30D2, 0x30D5, 0x30D8, 0x30DB, 0x30FD] then
      some (Char.ofNat (b.toNat + 1))
    else if b.toNat = 0x3046 then some (Char.ofNat 0x3094)
    else if b.toNat = 0x30A6 then some (Char.ofNat 0x30F4)
    else if b.toNat ∈ [0x30EF, 0x30F0, 0x30F1, 0x30F2] then
      some (Char.ofNat (b.toNat + 8))
    else none
  else if m.toNat = 0x309A then
    if b.toNat ∈ [0x306F, 0x3072, 0x3075, 0x3078, 0x307B,
        0x30CF, 0x30D2, 0x30D5, 0x30D8, 0x30DB] then
      some (Char.ofNat (b.toNat + 2))
    else none
  else none

/-- The canonical-composition pass: combine each combining sound mark with
the immediately preceding character when a composite exists.  On sequences
drawn from the modelled repertoire (starters of combining class 0 plus the
class-8 marks U+3099/U+309A) this adjacent-pair rule coincides with the
Unicode composition algorithm, blocking included. -/
def nfkcComposeAux (acc : List Char) : List Char → List Char
  | [] => acc
  | c :: cs =>
    match acc.getLast? with
    | some b =>
      match kanaCompose b c with
      | some comp => nfkcComposeAux (acc.dropLast ++ [comp]) cs
      | none => nfkcComposeAux (acc ++ [c]) cs
    | none => nfkcComposeAux (acc ++ [c]) cs

/-- Embeds `unicodedata.normalize("NFKC", ·)` on the modelled repertoire:
compatibility decomposition followed by canonical composition. -/
def nfkc (cs : List Char) : List Char :=
  nfkcComposeAux [] (cs.flatMap nfkcDecomp)

/-- The characters of the `_has_cjk` ranges on which NFKC is not the
identity: the combining sound marks U+3099/U+309A (they may compose with a
preceding base), their non-combining forms U+309B/U+309C (compatibility
decomposition to space + combining mark) and the kana ligatures
U+309F/U+30FF (compatibility decomposition to two kana).  Every other
character of those ranges is NFKC-fixed. -/
def isNfkcUnstableCJK (c : Char) : Bool :=
  c.toNat = 0x3099 || c.toNat = 0x309A || c.toNat = 0x309B ||
    c.toNat = 0x309C || c.toNat = 0x309F || c.toNat = 0x30FF

/-- Embeds `normalize_title(title, strict)`:
NFKC and trim; short-circuit on empty; detect CJK; casefold; in relaxed mode
strip markers; on CJK only fold punctuation, otherwise strip Latin-only
combining marks, fold punctuation and expand `&`; finally collapse
whitespace and trim. -/
def normalize_title (title : String) (strict : Bool) : String :=
  let s := pyStrip (nfkc title.data)
  if s.isEmpty then "" else
    let hasCjk := has_cjk s
    let s := s.map Char.toLower
    let s := if strict then s else markerSub s
    let s :=
      if hasCjk then punctSub s
      else expandAmp (punctSub (stripAccentsLatinOnly s))
    ⟨pyStrip (squeezeWs s)⟩

/-- Lexicographic codepoint comparison of character lists: the order Python
uses to compare strings. -/
def charListLe : List Char → List Char → Bool
  | [], _ => true
  | _ :: _, [] => false
  | a :: as, b :: bs =>
    if a = b then charListLe as bs else decide (a.toNat < b.toNat)

/-- String order used to embed Python's `sorted` and string `<=` (codepoint
lexicographic in both). -/
def strLe (a b : String) : Prop := charListLe a.data b.data = true

instance : DecidableRel strLe := fun a b =>
  inferInstanceAs (Decidable (charListLe a.data b.data = true))

theorem char_eq_of_toNat_eq {a b : Char} (h : a.toNat = b.toNat) : a = b :=
  Char.ext (UInt32.ext h)

theorem charListLe_total :
    ∀ as bs : List Char, charListLe as bs = true ∨ charListLe bs as = true := by
  intro as
  induction as with
  | nil => intro bs; left; rfl
  | cons a as ih =>
    intro bs
    cases bs with
    | nil => right; rfl
    | cons b bs =>
      by_cases hab : a = b
      · subst hab
        simpa [charListLe] using ih bs
      · rcases Nat.lt_trichotomy a.toNat b.toNat with h | h | h
        · left; simp [charListLe, hab, h]
        · exact absurd (char_eq_of_toNat_eq h) hab
        · right
          have hba : ¬b = a := fun e => hab (Eq.symm e)
          simp [charListLe, hba, h]

theorem charListLe_trans :
    ∀ as bs cs : List Char, charListLe as bs = true → charListLe bs cs = true →
      charListLe as cs = true := by
  intro as
  induction as with
  | nil => intro bs cs _ _; rfl
  | cons a as ih =>
    intro bs cs h1 h2
    cases bs with
    | nil => simp [charListLe] at h1
    | cons b bs =>
      cases cs with
      | nil => simp [charListLe] at h2
      | cons c cs =>
        by_cases hab : a = b <;> by_cases hbc : b = c
        · subst hab; subst hbc
          simp only [charListLe, if_pos rfl] at h1 h2 ⊢
          exact ih bs cs h1 h2
        · subst hab
          simp only [charListLe, if_pos rfl, if_neg hbc] at h2 ⊢
          exact h2
        · subst hbc
          simp only [charListLe, if_neg hab] at h1 ⊢
          exact h1
        · simp only [charListLe, if_neg hab, if_neg hbc,
            decide_eq_true_eq] at h1 h2
          have hac : a.toNat < c.toNat := Nat.lt_trans h1 h2
          have hne : a ≠ c := fun e => by
            rw [e] at hac; exact Nat.lt_irrefl _ hac
          simp [charListLe, hne, hac]

theorem charListLe_antisymm :
    ∀ as bs : List Char, charListLe as bs = true → charListLe bs as = true →
      as = bs := by
  intro as
  induction as with
  | nil =>
    intro bs _ h2
    cases bs with
    | nil => rfl
    | cons b bs => simp [charListLe] at h2
  | cons a as ih =>
    intro bs h1 h2
    cases bs with
    | nil => simp [charListLe] at h1
    | cons b bs =>
      by_cases hab : a = b
      · subst hab
        simp only [charListLe, if_pos rfl] at h1 h2
        rw [ih bs h1 h2]
      · simp only [charListLe, if_neg hab, if_neg fun e => hab (Eq.symm e),
          decide_eq_true_eq] at h1 h2
        omega

instance : IsTotal String strLe := ⟨fun a b => charListLe_total a.data b.data⟩

instance : IsTrans String strLe :=
  ⟨fun a b c h h' => charListLe_trans a.data b.data c.data h h'⟩

instance : IsAntisymm String strLe :=
  ⟨fun a b h h' => congrArg String.mk (charListLe_antisymm a.data b.data h h')⟩

/-- The insertion-ordered duplicate-free accumulation of
`normalize_artists`'s `set` (`norm.add(s)` for each non-empty normalized
name). -/
def artistSet (artists : List String) : List String :=
  artists.foldl
    (fun acc a =>
      let s := normalize_title a true
      if s.isEmpty then acc else if s ∈ acc then acc else acc ++ [s])
    []

/-- Embeds `normalize_artists`: each artist through `normalize_title` with
`strict=True`, empty results dropped, deduplicated as a set and returned
sorted. -/
def normalize_artists (artists : List String) : List String :=
  (artistSet artists).insertionSort strLe

/-! ## duplicates.py: data model -/

/-- Embeds the `Track` dataclass. -/
structure Track where
  name : String
  artists : List String
  album : String
  uri : String
  duration_ms : Int
  added_at : String
  playlist_idx : Nat
deriving DecidableEq, Inhabited

/-- Embeds `KeyFormat = Tuple[str, Tuple[str, ...], int]`. -/
abbrev KeyFormat := String × List String × Int

/-- Embeds the `DuplicateGroup` dataclass. -/
structure DuplicateGroup where
  key : KeyFormat
  tracks : List Track
deriving DecidableEq, Inhabited

/-- Embeds `_round_seconds(ms) = int(round(ms / 1000.0))`: division by 1000
rounded half-to-even (Python `round`; the quotient below 2^51 is exact in
binary64, so the rational rounding is the float rounding). -/
def round_seconds (ms : Int) : Int :=
  let q := Int.fdiv ms 1000
  let r := Int.fmod ms 1000
  if r < 500 then q
  else if 500 < r then q + 1
  else if q % 2 = 0 then q else q + 1

/-- Embeds `make_key(t, strict)`. -/
def make_key (t : Track) (strict : Bool) : KeyFormat :=
  (normalize_title t.name strict, normalize_artists t.artists,
    round_seconds t.duration_ms)

/-- Embeds `within_tolerance(sec_a, sec_b, tol) = abs(sec_a-sec_b) <= tol`. -/
def within_tolerance (sec_a sec_b tol : Int) : Bool :=
  decide (((sec_a - sec_b).natAbs : Int) ≤ tol)

/-- The matching condition shared by the merging loop of `group_duplicates`
and the representative scans of `compute_keep_and_delete_uris`:
`t2 == title and a2 == arts and within_tolerance(sec, s2, tol)`, where `rep`
is the already-placed key and `k` the candidate key. -/
def repMatches (tol : Int) (k rep : KeyFormat) : Bool :=
  rep.1 = k.1 && decide (rep.2.1 = k.2.1) && within_tolerance k.2.2 rep.2.2 tol

/-! ## Raw playlist-item records and their parsing

The JSON-like item records consumed by the resolver, with `Option` fields for
possibly-missing keys. -/

/-- One entry of the raw `artists` array. -/
structure RawArtist where
  name : Option String := none
deriving DecidableEq, Inhabited

/-- The raw `album` object. -/
structure RawAlbum where
  name : Option String := none
deriving DecidableEq, Inhabited

/-- The raw `track` object of a playlist item. -/
structure RawTrackObj where
  type : Option String := none
  name : Option String := none
  artists : Option (List RawArtist) := none
  album : Option RawAlbum := none
  uri : Option String := none
  duration_ms : Option Int := none
deriving DecidableEq, Inhabited

/-- One raw playlist-item record.  A missing or empty (falsy) `track` dict is
modelled as `none`. -/
structure RawItem where
  added_at : Option String := none
  track : Option RawTrackObj := none
deriving DecidableEq, Inhabited

/-- Embeds one iteration of the record-extraction loop shared by
`group_duplicates` and `compute_keep_and_delete_uris`: skip the item unless
`track.type == "track"`, otherwise build a `Track`, defaulting every missing
field to the empty string, zero or the empty list. -/
def parseItem (pos : Nat) (item : RawItem) : Option Track :=
  match item.track with
  | none => none
  | some tr =>
    if tr.type = some "track" then
      some
        { name := tr.name.getD ""
          artists := (tr.artists.getD []).map fun a => a.name.getD ""
          album := (tr.album.getD {}).name.getD ""
          uri := tr.uri.getD ""
          duration_ms := tr.duration_ms.getD 0
          added_at := item.added_at.getD ""
          playlist_idx := pos }
    else none

/-- The record-extraction loop, enumerating from a start position. -/
def parseTracksFrom (start : Nat) (items : List RawItem) : List Track :=
  (items.enumFrom start).filterMap fun p => parseItem p.1 p.2

/-- Embeds the full record-extraction loop (`for pos, item in
enumerate(items)` starting at 0). -/
def parseTracks (items : List RawItem) : List Track :=
  parseTracksFrom 0 items

/-! ## duplicates.py: group_duplicates -/

/-- Embeds `buckets.setdefault(key, []).append(track)` on an
insertion-ordered association list (Python dicts preserve insertion
order). -/
def bucketAdd (buckets : List (KeyFormat × List Track)) (k : KeyFormat)
    (t : Track) : List (KeyFormat × List Track) :=
  match buckets with
  | [] => [(k, [t])]
  | (k', g) :: rest =>
    if k' = k then (k', g ++ [t]) :: rest else (k', g) :: bucketAdd rest k t

/-- The bucket-filling loop of `group_duplicates`. -/
def fillBuckets (strict : Bool) (tracks : List Track) :
    List (KeyFormat × List Track) :=
  tracks.foldl (fun b t => bucketAdd b (make_key t strict) t) []

/-- The inner scan of the merging loop: extend the first already-placed key
with equal title/artists and seconds within tolerance, else report no
placement. -/
def mergePlace (tol : Int) (k : KeyFormat) (g : List Track) :
    List (KeyFormat × List Track) → Option (List (KeyFormat × List Track))
  | [] => none
  | (k', g') :: rest =>
    if repMatches tol k k' then some ((k', g' ++ g) :: rest)
    else (mergePlace tol k g rest).map fun rest' => (k', g') :: rest'

/-- The tolerance-merging loop of `group_duplicates`. -/
def mergeBuckets (tol : Int) (buckets : List (KeyFormat × List Track)) :
    List (KeyFormat × List Track) :=
  buckets.foldl
    (fun merged (k, g) =>
      match mergePlace tol k g merged with
      | some merged' => merged'
      | none => merged ++ [(k, g)])
    []

/-- Track comparison used by `group.sort(key=lambda x: x.added_at)`. -/
def addedLe (a b : Track) : Prop := strLe a.added_at b.added_at

instance : DecidableRel addedLe := fun a b =>
  inferInstanceAs (Decidable (strLe a.added_at b.added_at))

instance : IsTotal Track addedLe :=
  ⟨fun a b => charListLe_total a.added_at.data b.added_at.data⟩

instance : IsTrans Track addedLe :=
  ⟨fun a b c h h' =>
    charListLe_trans a.added_at.data b.added_at.data c.added_at.data h h'⟩

/-- Embeds `group_duplicates(items, strict=…, tol_secs=…)`. -/
def group_duplicates (items : List RawItem) (strict : Bool) (tol_secs : Int) :
    List DuplicateGroup :=
  let tracks := parseTracks items
  let merged := mergeBuckets tol_secs (fillBuckets strict tracks)
  merged.filterMap fun p =>
    if 1 < p.2.length then
      some { key := p.1, tracks := p.2.insertionSort addedLe }
    else none

/-! ## duplicates.py: compute_keep_and_delete_uris -/

/-- The three parallel lists maintained by the representative scan. -/
structure ScanState where
  first_keys : List KeyFormat
  uris_by_key : List (List String)
  keeper_by_key : List String
deriving DecidableEq, Inhabited

/-- Embeds the inner `for i, (t2, a2, s2) in enumerate(first_keys)` scan with
its `break`: the index of the first representative with exactly equal
title/artists and seconds within tolerance of the representative's own
(anchored) seconds. -/
def findRepIdx (tol : Int) (k : KeyFormat) : List KeyFormat → Option Nat
  | [] => none
  | k' :: rest =>
    if repMatches tol k k' then some 0
    else (findRepIdx tol k rest).map (· + 1)

/-- Python `set.add` on the insertion-ordered list model of a set. -/
def setAdd (l : List String) (u : String) : List String :=
  if u ∈ l then l else l ++ [u]

/-- One iteration of the representative scan: match the first representative
or append a new one (whose anchor is this first occurrence's key and whose
keeper is this first occurrence's URI). -/
def scanStep (strict : Bool) (tol : Int) (st : ScanState) (t : Track) :
    ScanState :=
  let k := make_key t strict
  match findRepIdx tol k st.first_keys with
  | none =>
    { first_keys := st.first_keys ++ [k]
      uris_by_key := st.uris_by_key ++ [[t.uri]]
      keeper_by_key := st.keeper_by_key ++ [t.uri] }
  | some i =>
    { st with
        uris_by_key := st.uris_by_key.set i (setAdd (st.uris_by_key.getD i []) t.uri) }

/-- The full representative scan over the tracks in playlist order. -/
def scanReps (strict : Bool) (tol : Int) (tracks : List Track) : ScanState :=
  tracks.foldl (scanStep strict tol) ⟨[], [], []⟩

/-- Embeds the second pass counting occurrences per canonical key (again
first-match with `break`; tracks matching no representative are not
counted). -/
def countFor (strict : Bool) (tol : Int) (keys : List KeyFormat)
    (tracks : List Track) : List Nat :=
  tracks.foldl
    (fun counts t =>
      match findRepIdx tol (make_key t strict) keys with
      | some i => counts.set i (counts.getD i 0 + 1)
      | none => counts)
    (List.replicate keys.length 0)

/-- Embeds `compute_keep_and_delete_uris(items, strict=…, tol_secs=…)`.
The `delete_uris_set` is modelled as an insertion-ordered duplicate-free
list; the final "stable-unique" loop of the Python code iterates that set
(in CPython: in hash order) and re-deduplicates, which on an already
duplicate-free collection only fixes an iteration order, so it is the
identity on the model. -/
def compute_keep_and_delete_uris (items : List RawItem) (strict : Bool)
    (tol_secs : Int) : List String × List String :=
  let tracks := parseTracks items
  let st := scanReps strict tol_secs tracks
  let counts := countFor strict tol_secs st.first_keys tracks
  let keep_uris := (List.range st.first_keys.length).filterMap fun i =>
    if 1 < counts.getD i 0 then some (st.keeper_by_key.getD i "") else none
  let delete_uris := (List.range st.first_keys.length).foldl
    (fun acc i =>
      if 1 < counts.getD i 0 then (st.uris_by_key.getD i []).foldl setAdd acc
      else acc)
    []
  (keep_uris, delete_uris)

/-! ## client.py: iter_playlist_items

The network is modelled as the finite trace of responses the server returns
to the successive HTTP requests the generator issues (one trace element is
consumed per `requests.get`).  A trace element carries the status code, the
`Retry-After` header (already as the integer `int()` would produce), the
`items` array and the `next` link of the decoded JSON body. -/

/-- One HTTP response of the playlist-read trace. -/
structure PageResponse where
  status : Nat
  retry_after : Option Int := none
  items : List RawItem := []
  next : Option String := none
deriving DecidableEq, Inhabited

/-- How a run of `iter_playlist_items` ends. -/
inductive IterOutcome where
  /-- The `next` link was absent (or empty): normal completion. -/
  | finished : IterOutcome
  /-- A non-2xx, non-429 status made `raise_for_status` raise. -/
  | upstreamError (status : Nat) : IterOutcome
  /-- The loop guard `retry_counter < 10` failed: the generator simply ends,
  without raising, leaving the read truncated. -/
  | exhaustedLoop : IterOutcome
  /-- Artifact of the finite trace model: the code would issue one more
  request than the trace provides. -/
  | serverSilent : IterOutcome
deriving DecidableEq, Inhabited

/-- Embeds the loop of `iter_playlist_items` from a given value of
`retry_counter`.  Returns the items yielded, the sleeps performed
(`int(r.headers.get("Retry-After", "1"))` seconds each) and how the run
ends.  The guard is checked before each request; the counter increments
after every request, 429 or not; a 429 sleeps and reissues the same page
request (the next trace element); any other non-2xx raises; otherwise the
page's items are yielded and the `next` link is followed unless falsy. -/
def iterPlaylistItemsFrom :
    Nat → List PageResponse → List RawItem × List Int × IterOutcome
  | counter, resps =>
    if counter < 10 then
      match resps with
      | [] => ([], [], .serverSilent)
      | r :: rest =>
        if r.status = 429 then
          let out := iterPlaylistItemsFrom (counter + 1) rest
          (out.1, r.retry_after.getD 1 :: out.2.1, out.2.2)
        else if 400 ≤ r.status then
          ([], [], .upstreamError r.status)
        else
          match r.next with
          | none => (r.items, [], .finished)
          | some u =>
            if u = "" then (r.items, [], .finished)
            else
              let out := iterPlaylistItemsFrom (counter + 1) rest
              (r.items ++ out.1, out.2.1, out.2.2)
    else ([], [], .exhaustedLoop)

/-- Embeds `iter_playlist_items` (the loop starts with `retry_counter = 0`). -/
def iterPlaylistItems (resps : List PageResponse) :
    List RawItem × List Int × IterOutcome :=
  iterPlaylistItemsFrom 0 resps

/-! ## client.py: mutation (remove_by_uri, add_items, clear_dupes_then_readd) -/

/-- The dedup loop of `remove_by_uri`: keep the first occurrence of each
truthy (non-empty) URI, in order. -/
def dedupNonEmpty (uris : List String) : List String :=
  uris.foldl (fun acc u => if u ≠ "" ∧ u ∉ acc then acc ++ [u] else acc) []

/-- The `range(0, len(unique), 100)` chunking loop: slices of at most 100. -/
def chunk100 (l : List String) : List (List String) :=
  if l = [] then []
  else l.take 100 :: chunk100 (l.drop 100)
termination_by l.length
decreasing_by
  simp only [List.length_drop]
  have : l.length ≠ 0 := fun h => by
    simp only [List.length_eq_zero] at h
    exact absurd h (by assumption)
  omega

/-- Embeds `remove_by_uri`: the sequence of per-call `tracks` payloads (each
the URI list of one DELETE call). -/
def remove_by_uri (uris : List String) : List (List String) :=
  chunk100 (dedupNonEmpty uris)

/-- Embeds `add_items`: a single POST with all URIs — no chunking — guarded
by `if len(uris) > 100: raise ValueError(...)`. -/
def add_items (uris : List String) : Except String (List String) :=
  if 100 < uris.length then .error "add_items accepts at most 100 URIs"
  else .ok uris

/-- Embeds the mutation phase of `clear_dupes_then_readd` applied to an
already-computed `(keep_uris, delete_uris)` pair: first the DELETE calls of
`remove_by_uri` (skipped entirely when `delete_uris` is empty), then the
single `add_items` call (skipped when `keep_uris` is empty).  The result is
the list of DELETE payloads and either the list of ADD payloads or the
`ValueError` text. -/
def clearDupesMutation (delete_uris keep_uris : List String) :
    List (List String) × Except String (List (List String)) :=
  (if delete_uris = [] then [] else remove_by_uri delete_uris,
   if keep_uris = [] then .ok []
   else (add_items keep_uris).map fun payload => [payload])

/-! ## Fixtures

Concrete raw items in the shape produced by the playlist API, mirroring the
repository's test helper `mk_item`. -/

/-- Builds a well-formed raw playlist item. -/
def mkRawItem (name : String) (artists : List String) (dur : Int)
    (uri : String) (added : String) (ty : String := "track") : RawItem :=
  { added_at := some added
    track := some
      { type := some ty
        name := some name
        artists := some (artists.map fun a => { name := some a })
        album := some { name := some "Album" }
        uri := some uri
        duration_ms := some dur } }

/-- Scenario 1/2 of the spec: a `(feat. …) - Remastered` variant next to the
plain title, same artist, same duration. -/
def itemsFeatRemaster : List RawItem :=
  [mkRawItem "Song (feat. Drake) - Remastered 2012" ["Artist A"] 215000
      "spotify:track:111" "2024-01-01T00:00:00Z",
   mkRawItem "Song" ["Artist A"] 215000 "spotify:track:111"
      "2024-01-02T00:00:00Z"]

/-- Scenario 5 of the spec: one CJK title twice plus a distinct CJK title. -/
def itemsCJK : List RawItem :=
  [mkRawItem "もしも命が描けたら" ["YOASOBI"] 250000 "spotify:track:j1"
      "2024-01-01T00:00:00Z",
   mkRawItem "もしも命が描けたら" ["YOASOBI"] 250000 "spotify:track:j1"
      "2024-01-02T00:00:00Z",
   mkRawItem "あの夏に咲け" ["美波"] 250000 "spotify:track:j2"
      "2024-01-03T00:00:00Z"]

/-- A playlist whose scan order disagrees with its `added_at` order: the
duplicate at playlist position 0 was added later than the one at position 1. -/
def itemsAddedOutOfOrder : List RawItem :=
  [mkRawItem "a" ["x"] 0 "u1" "2024-05-05T00:00:00Z",
   mkRawItem "a" ["x"] 0 "u2" "2023-01-01T00:00:00Z"]

/-- A playlist where the URI `u` is the first occurrence of two different
representative keys (two different titles carry the same URI). -/
def itemsSharedKeeperUri : List RawItem :=
  [mkRawItem "a" ["x"] 0 "u" "t0", mkRawItem "b" ["x"] 0 "u" "t1",
   mkRawItem "a" ["x"] 0 "v" "t2", mkRawItem "b" ["x"] 0 "w" "t3"]

/-! ## Lemmas: normalization preserves CJK-only strings -/

theorem cjk_toNat_ge {c : Char} (hc : isCJKChar c = true) : 0x3040 ≤ c.toNat := by
  unfold isCJKChar at hc
  simp only [Bool.or_eq_true, Bool.and_eq_true, decide_eq_true_eq] at hc
  omega

theorem cjk_toLower {c : Char} (hc : isCJKChar c = true) : c.toLower = c := by
  have h := cjk_toNat_ge hc
  unfold Char.toLower
  rw [if_neg]
  intro h'
  omega

theorem cjk_not_space {c : Char} (hc : isCJKChar c = true) :
    isSpaceChar c = false := by
  have h := cjk_toNat_ge hc
  unfold isSpaceChar
  simp only [Bool.or_eq_false_iff, decide_eq_false_iff_not]
  omega

theorem cjk_not_punct {c : Char} (hc : isCJKChar c = true) :
    isPunctChar c = false := by
  have h := cjk_toNat_ge hc
  unfold isPunctChar
  simp only [Bool.or_eq_false_iff, decide_eq_false_iff_not]
  omega

theorem cjk_toLower_ne {c : Char} (hc : isCJKChar c = true) {d : Char}
    (hd : d.toNat < 0x3040) : (c.toLower = d) = False := by
  have h := cjk_toNat_ge hc
  rw [cjk_toLower hc]
  apply eq_false
  intro e
  have he := congrArg Char.toNat e
  omega

theorem dropWhile_eq_self_of (p : Char → Bool) (l : List Char)
    (h : ∀ c ∈ l, p c = false) : l.dropWhile p = l := by
  cases l with
  | nil => rfl
  | cons a l => simp [List.dropWhile_cons, h a (List.mem_cons_self a l)]

theorem pyStrip_eq_self {cs : List Char}
    (h : ∀ c ∈ cs, isSpaceChar c = false) : pyStrip cs = cs := by
  unfold pyStrip
  rw [dropWhile_eq_self_of _ _ h,
    dropWhile_eq_self_of _ _ fun c hc => h c (List.mem_reverse.mp hc),
    List.reverse_reverse]

theorem dropSpaces_cjk {c : Char} (rest : List Char)
    (hc : isCJKChar c = true) : dropSpaces (c :: rest) = c :: rest := by
  simp [dropSpaces, List.dropWhile_cons, cjk_not_space hc]

theorem tryMarker_cjk_none {c : Char} (rest : List Char)
    (hc : isCJKChar c = true) : tryMarker (c :: rest) = none := by
  have hdash := cjk_toLower_ne hc (d := '-') (by decide)
  have hpar := cjk_toLower_ne hc (d := '(') (by decide)
  have hbrk := cjk_toLower_ne hc (d := '[') (by decide)
  have h1 : branch1 (c :: rest) = none := by
    unfold branch1
    rw [dropSpaces_cjk rest hc]
    simp [matchLit, hdash]
  have h2 : branch2 (c :: rest) = none := by
    unfold branch2
    rw [dropSpaces_cjk rest hc]
    simp [matchLit, hdash]
  have h3 : branch3 (c :: rest) = none := by
    unfold branch3
    rw [dropSpaces_cjk rest hc]
    simp [matchLit, hdash]
  have h4 : branch4 (c :: rest) = none := by
    unfold branch4
    rw [dropSpaces_cjk rest hc]
    simp [matchLit, hpar]
  have h5 : branch5 (c :: rest) = none := by
    unfold branch5
    rw [dropSpaces_cjk rest hc]
    simp [matchLit, hbrk]
  have h6 : branch6 (c :: rest) = none := by
    unfold branch6
    rw [dropSpaces_cjk rest hc]
    simp [matchLit, hpar]
  simp [tryMarker, h1, h2, h3, h4, h5, h6, Option.orElse]

theorem markerSubGo_cjk (n : Nat) :
    ∀ cs : List Char, (∀ c ∈ cs, isCJKChar c = true) →
      markerSubGo n cs = cs := by
  induction n with
  | zero => intro cs _; rfl
  | succ n ih =>
    intro cs h
    cases cs with
    | nil => rfl
    | cons c rest =>
      unfold markerSubGo
      rw [tryMarker_cjk_none rest (h c (List.mem_cons_self c rest))]
      rw [ih rest fun d hd => h d (List.mem_cons_of_mem c hd)]

theorem punctSub_eq_self {cs : List Char}
    (h : ∀ c ∈ cs, isPunctChar c = false) : punctSub cs = cs := by
  induction cs with
  | nil => rfl
  | cons c rest ih =>
    unfold punctSub
    simp only [List.map_cons, h c (List.mem_cons_self c rest)]
    have := ih fun d hd => h d (List.mem_cons_of_mem c hd)
    unfold punctSub at this
    simp [this]

theorem nfkcDecomp_eq_self {c : Char} (h : isNfkcUnstableCJK c = false) :
    nfkcDecomp c = [c] := by
  unfold isNfkcUnstableCJK at h
  simp only [Bool.or_eq_false_iff, decide_eq_false_iff_not] at h
  obtain ⟨⟨⟨⟨⟨_, _⟩, h3⟩, h4⟩, h5⟩, h6⟩ := h
  unfold nfkcDecomp
  rw [if_neg h3, if_neg h4, if_neg h5, if_neg h6]

theorem flatMap_nfkcDecomp_eq_self {cs : List Char}
    (h : ∀ c ∈ cs, isNfkcUnstableCJK c = false) :
    cs.flatMap nfkcDecomp = cs := by
  induction cs with
  | nil => rfl
  | cons c cs ih =>
    rw [List.flatMap_cons, nfkcDecomp_eq_self (h c (List.mem_cons_self c cs)),
      ih fun d hd => h d (List.mem_cons_of_mem c hd)]
    rfl

theorem kanaCompose_eq_none (b : Char) {m : Char} (h1 : ¬ m.toNat = 0x3099)
    (h2 : ¬ m.toNat = 0x309A) : kanaCompose b m = none := by
  unfold kanaCompose
  rw [if_neg h1, if_neg h2]

theorem nfkcComposeAux_eq_append :
    ∀ (cs acc : List Char),
      (∀ c ∈ cs, ¬ c.toNat = 0x3099 ∧ ¬ c.toNat = 0x309A) →
      nfkcComposeAux acc cs = acc ++ cs := by
  intro cs
  induction cs with
  | nil => intro acc _; simp [nfkcComposeAux]
  | cons c cs ih =>
    intro acc h
    obtain ⟨h1, h2⟩ := h c (List.mem_cons_self c cs)
    unfold nfkcComposeAux
    cases hl : acc.getLast? with
    | some b =>
      simp only [hl, kanaCompose_eq_none b h1 h2]
      rw [ih (acc ++ [c]) fun d hd => h d (List.mem_cons_of_mem c hd)]
      simp
    | none =>
      simp only [hl]
      rw [ih (acc ++ [c]) fun d hd => h d (List.mem_cons_of_mem c hd)]
      simp

theorem nfkc_eq_self {cs : List Char}
    (h : ∀ c ∈ cs, isNfkcUnstableCJK c = false) : nfkc cs = cs := by
  unfold nfkc
  rw [flatMap_nfkcDecomp_eq_self h]
  rw [nfkcComposeAux_eq_append cs [] fun c hc => ?_]
  · rfl
  · have hc' := h c hc
    unfold isNfkcUnstableCJK at hc'
    simp only [Bool.or_eq_false_iff, decide_eq_false_iff_not] at hc'
    exact ⟨hc'.1.1.1.1.1, hc'.1.1.1.1.2⟩

theorem squeezeWs_eq_self :
    ∀ cs : List Char, (∀ c ∈ cs, isSpaceChar c = false) →
      squeezeWs cs = cs := by
  intro cs
  induction cs with
  | nil => intro _; rfl
  | cons c tl ih =>
    intro h
    cases tl with
    | nil => simp [squeezeWs, h c (List.mem_cons_self c [])]
    | cons d rest =>
      have hc := h c (List.mem_cons_self c (d :: rest))
      have hd := h d (List.mem_cons_of_mem c (List.mem_cons_self d rest))
      unfold squeezeWs
      rw [if_neg (by simp [hc]), if_neg (by simp [hc])]
      exact congrArg _ (ih fun e he => h e (List.mem_cons_of_mem c he))

/-! ## Claim C6 -/

/-- C6: with `strict=false` the titles "Song (feat. Drake) - Remastered 2012"
and "Song" (same artist, same duration) normalize to equal keys and form one
group of two; with `strict=true` marker stripping is disabled, the two titles
normalize to different keys, and no group is formed. -/
theorem claim_C6 :
    normalize_title "Song (feat. Drake) - Remastered 2012" false = "song" ∧
    normalize_title "Song" false = "song" ∧
    (group_duplicates itemsFeatRemaster false 2).map
        (fun g => g.tracks.length) = [2] ∧
    normalize_title "Song (feat. Drake) - Remastered 2012" true ≠
      normalize_title "Song" true ∧
    group_duplicates itemsFeatRemaster true 2 = [] := by
  refine ⟨rfl, rfl, rfl, by decide, rfl⟩

/-! ## Claim C7 -/

/-- C7 counterexample: a title containing CJK codepoints is not always
returned byte-for-byte unchanged.  A title that also contains an uppercase
Latin letter is casefolded, and even a title made solely of CJK-range
codepoints changes when NFKC is not the identity on it: か followed by the
combining voiced sound mark U+3099 (both inside the Hiragana/Katakana
range) is composed to the single character が. -/
theorem claim_C7_counterexample :
    (has_cjk "Xもしも".data = true ∧
      normalize_title "Xもしも" false ≠ "Xもしも") ∧
    ((∀ c ∈ ("\u304B\u3099" : String).data, isCJKChar c = true) ∧
      normalize_title "\u304B\u3099" false = "\u304C" ∧
      ("\u304B\u3099" : String) ≠ "\u304C") := by
  exact ⟨⟨rfl, by decide⟩, ⟨by decide, rfl, by decide⟩⟩

/-- C7 (amended): a non-empty title consisting solely of CJK codepoints,
none of which is one of the NFKC-unstable kana characters (the combining
sound marks U+3099/U+309A, their spacing forms U+309B/U+309C, or the
ligatures U+309F/U+30FF), is returned unchanged by `normalize_title` in
both modes — in particular the accent-stripping step is skipped on the CJK
path, so no character is corrupted — and in scenario 5 the twice-occurring
CJK title forms exactly one group of two with its name intact while the
distinct CJK title stays ungrouped. -/
theorem claim_C7 (s : String) (strict : Bool) (h1 : s.data ≠ [])
    (h2 : ∀ c ∈ s.data, isCJKChar c = true)
    (h3 : ∀ c ∈ s.data, isNfkcUnstableCJK c = false) :
    normalize_title s strict = s ∧
      (group_duplicates itemsCJK false 0).map
          (fun g => g.tracks.map Track.name) =
        [["もしも命が描けたら", "もしも命が描けたら"]] := by
  refine ⟨?_, rfl⟩
  have hnfkc : nfkc s.data = s.data := nfkc_eq_self h3
  have hns : ∀ c ∈ s.data, isSpaceChar c = false :=
    fun c hc => cjk_not_space (h2 c hc)
  have hstrip : pyStrip s.data = s.data := pyStrip_eq_self hns
  have hcjk : has_cjk s.data = true := by
    unfold has_cjk
    cases hd : s.data with
    | nil => exact absurd hd h1
    | cons c rest =>
      have := h2 c (hd ▸ List.mem_cons_self c rest)
      simp [List.any_cons, this]
  have hlowAll : ∀ l : List Char, (∀ c ∈ l, isCJKChar c = true) →
      l.map Char.toLower = l := by
    intro l hl
    induction l with
    | nil => rfl
    | cons c rest ih =>
      simp only [List.map_cons, cjk_toLower (hl c (List.mem_cons_self c rest))]
      rw [ih fun d hd => hl d (List.mem_cons_of_mem c hd)]
  have hlow : s.data.map Char.toLower = s.data := hlowAll s.data h2
  have hmark : ∀ l : List Char, (∀ c ∈ l, isCJKChar c = true) →
      (if strict then l else markerSub l) = l := by
    intro l hl
    cases strict with
    | true => rfl
    | false => exact markerSubGo_cjk l.length l hl
  have hpunct : punctSub s.data = s.data :=
    punctSub_eq_self fun c hc => cjk_not_punct (h2 c hc)
  have hsq : squeezeWs s.data = s.data := squeezeWs_eq_self s.data hns
  unfold normalize_title
  rw [hnfkc, hstrip]
  rw [if_neg (by cases hd : s.data with
    | nil => exact absurd hd h1
    | cons c rest => simp [hd])]
  rw [hcjk, hlow]
  dsimp only
  simp only [if_true]
  rw [hmark s.data h2, hpunct, hsq, hstrip]

/-- Witness for C7 (amended): the fixture's CJK title is preserved. -/
theorem claim_C7_witness :
    normalize_title "もしも命が描けたら" false = "もしも命が描けたら" :=
  (claim_C7 "もしも命が描けたら" false (by decide) (by decide) (by decide)).1

/-! ## Claim C9 -/

theorem artistSet_mem (l : List String) :
    ∀ acc u, u ∈ l.foldl
        (fun acc a =>
          let s := normalize_title a true
          if s.isEmpty then acc else if s ∈ acc then acc else acc ++ [s])
        acc ↔
      u ∈ acc ∨ ∃ a ∈ l, normalize_title a true = u ∧ u ≠ "" := by
  induction l with
  | nil => intro acc u; simp
  | cons a l ih =>
    intro acc u
    rw [List.foldl_cons, ih]
    by_cases he : (normalize_title a true).isEmpty
    · have he' : normalize_title a true = "" := (String.isEmpty_iff _).mp he
      simp only [he, if_true]
      constructor
      · rintro (h | ⟨b, hb, hu⟩)
        · exact Or.inl h
        · exact Or.inr ⟨b, List.mem_cons_of_mem a hb, hu⟩
      · rintro (h | ⟨b, hb, hu, hne⟩)
        · exact Or.inl h
        · rcases List.mem_cons.mp hb with rfl | hb'
          · exact absurd (he' ▸ hu).symm hne
          · exact Or.inr ⟨b, hb', hu, hne⟩
    · have hne'' : normalize_title a true ≠ "" := by
        intro h
        rw [h] at he
        exact he rfl
      simp only [he, if_false]
      by_cases hmem : normalize_title a true ∈ acc
      · simp only [hmem, if_true]
        constructor
        · rintro (h | ⟨b, hb, hu⟩)
          · exact Or.inl h
          · exact Or.inr ⟨b, List.mem_cons_of_mem a hb, hu⟩
        · rintro (h | ⟨b, hb, hu, hne⟩)
          · exact Or.inl h
          · rcases List.mem_cons.mp hb with rfl | hb'
            · exact Or.inl (hu ▸ hmem)
            · exact Or.inr ⟨b, hb', hu, hne⟩
      · simp only [hmem, if_false]
        constructor
        · rintro (h | ⟨b, hb, hu⟩)
          · rcases List.mem_append.mp h with h' | h'
            · exact Or.inl h'
            · rcases List.mem_singleton.mp h' with rfl
              exact Or.inr ⟨a, List.mem_cons_self a l, rfl, hne''⟩
          · exact Or.inr ⟨b, List.mem_cons_of_mem a hb, hu⟩
        · rintro (h | ⟨b, hb, hu, hne⟩)
          · exact Or.inl (List.mem_append.mpr (Or.inl h))
          · rcases List.mem_cons.mp hb with rfl | hb'
            · exact Or.inl (List.mem_append.mpr (Or.inr (by simp [hu])))
            · exact Or.inr ⟨b, hb', hu, hne⟩

theorem artistSet_nodup (l : List String) :
    ∀ acc, acc.Nodup → (l.foldl
        (fun acc a =>
          let s := normalize_title a true
          if s.isEmpty then acc else if s ∈ acc then acc else acc ++ [s])
        acc).Nodup := by
  induction l with
  | nil => intro acc h; exact h
  | cons a l ih =>
    intro acc h
    rw [List.foldl_cons]
    apply ih
    by_cases he : (normalize_title a true).isEmpty
    · simpa [he] using h
    · by_cases hmem : normalize_title a true ∈ acc
      · simpa [he, hmem] using h
      · simp only [he, if_false, hmem]
        rw [← List.concat_eq_append]
        exact List.Nodup.concat hmem h

/-- C9: permuting the artist list (and, more generally, replacing it by any
list whose elements normalize to the same set of names) leaves
`normalize_artists` unchanged, hence `make_key` produces equal keys and
artist order never affects grouping. -/
theorem claim_C9 (l1 l2 : List String)
    (h : l1.Perm l2 ∨
      ∀ u, (∃ a ∈ l1, normalize_title a true = u) ↔
        (∃ a ∈ l2, normalize_title a true = u)) :
    normalize_artists l1 = normalize_artists l2 ∧
      ∀ (t : Track) (strict : Bool),
        make_key { t with artists := l1 } strict =
          make_key { t with artists := l2 } strict := by
  have hsets : ∀ u, (∃ a ∈ l1, normalize_title a true = u) ↔
      (∃ a ∈ l2, normalize_title a true = u) := by
    rcases h with hperm | hset
    · intro u
      constructor
      · rintro ⟨a, ha, hu⟩; exact ⟨a, hperm.mem_iff.mp ha, hu⟩
      · rintro ⟨a, ha, hu⟩; exact ⟨a, hperm.mem_iff.mpr ha, hu⟩
    · exact hset
  have hmemeq : ∀ u, u ∈ artistSet l1 ↔ u ∈ artistSet l2 := by
    intro u
    unfold artistSet
    rw [artistSet_mem, artistSet_mem]
    simp only [List.not_mem_nil, false_or]
    constructor
    · rintro ⟨a, ha, hu, hne⟩
      rcases (hsets u).mp ⟨a, ha, hu⟩ with ⟨b, hb, hbu⟩
      exact ⟨b, hb, hbu, hne⟩
    · rintro ⟨a, ha, hu, hne⟩
      rcases (hsets u).mpr ⟨a, ha, hu⟩ with ⟨b, hb, hbu⟩
      exact ⟨b, hb, hbu, hne⟩
  have hn1 : (artistSet l1).Nodup := artistSet_nodup l1 [] List.nodup_nil
  have hn2 : (artistSet l2).Nodup := artistSet_nodup l2 [] List.nodup_nil
  have hperm : (artistSet l1).Perm (artistSet l2) :=
    (List.perm_ext_iff_of_nodup hn1 hn2).mpr hmemeq
  have hsorted : normalize_artists l1 = normalize_artists l2 := by
    unfold normalize_artists
    exact List.eq_of_perm_of_sorted
      (((List.perm_insertionSort strLe (artistSet l1)).trans hperm).trans
        (List.perm_insertionSort strLe (artistSet l2)).symm)
      (List.sorted_insertionSort strLe (artistSet l1))
      (List.sorted_insertionSort strLe (artistSet l2))
  refine ⟨hsorted, fun t strict => ?_⟩
  unfold make_key
  rw [hsorted]

/-- Witness for C9 at the spec's concrete pair of artist lists. -/
theorem claim_C9_witness :
    normalize_artists ["A", "B"] = normalize_artists ["B", "A"] :=
  (claim_C9 ["A", "B"] ["B", "A"] (Or.inl (List.Perm.swap "B" "A" []))).1

/-! ## Claim C1 -/

theorem findRepIdx_some_iff (tol : Int) (k : KeyFormat) :
    ∀ (ks : List KeyFormat) (i : Nat),
      findRepIdx tol k ks = some i ↔
        i < ks.length ∧ repMatches tol k (ks.getD i default) = true ∧
          ∀ j, j < i → repMatches tol k (ks.getD j default) = false := by
  intro ks
  induction ks with
  | nil =>
    intro i
    unfold findRepIdx
    simp
  | cons k' rest ih =>
    intro i
    unfold findRepIdx
    cases h : repMatches tol k k' with
    | true =>
      simp only [if_pos rfl]
      constructor
      · rintro he
        injection he with he
        subst he
        exact ⟨Nat.succ_pos _, by simpa using h, fun j hj => absurd hj (Nat.not_lt_zero j)⟩
      · rintro ⟨hlen, hmatch, hfirst⟩
        cases i with
        | zero => rfl
        | succ i' => exact absurd h (by simpa using hfirst 0 (Nat.succ_pos i'))
    | false =>
      simp only [if_neg Bool.false_ne_true]
      constructor
      · intro he
        rcases Option.map_eq_some'.mp he with ⟨i', hi', rfl⟩
        rcases (ih i').mp hi' with ⟨hlen, hmatch, hfirst⟩
        refine ⟨by simpa using Nat.succ_lt_succ hlen, by simpa using hmatch, ?_⟩
        intro j hj
        cases j with
        | zero => simpa using h
        | succ j' => simpa using hfirst j' (Nat.lt_of_succ_lt_succ hj)
      · rintro ⟨hlen, hmatch, hfirst⟩
        cases i with
        | zero => exact absurd h (by simpa using hmatch)
        | succ i' =>
          have : findRepIdx tol k rest = some i' := (ih i').mpr
            ⟨Nat.lt_of_succ_lt_succ (by simpa using hlen),
             by simpa using hmatch,
             fun j hj => by simpa using hfirst (j + 1) (Nat.succ_lt_succ hj)⟩
          simp [this]

theorem scanStep_first_keys_extend (strict : Bool) (tol : Int)
    (st : ScanState) (t : Track) :
    (scanStep strict tol st t).first_keys.take st.first_keys.length =
        st.first_keys ∧
      st.first_keys.length ≤ (scanStep strict tol st t).first_keys.length := by
  unfold scanStep
  cases h : findRepIdx tol (make_key t strict) st.first_keys with
  | none =>
    simp only [h]
    refine ⟨?_, by simp⟩
    exact List.take_left st.first_keys [make_key t strict]
  | some i =>
    simp only [h]
    exact ⟨List.take_length st.first_keys, le_refl _⟩

theorem scanFold_first_keys_take (strict : Bool) (tol : Int) :
    ∀ (ts : List Track) (st : ScanState),
      (List.foldl (scanStep strict tol) st ts).first_keys.take
          st.first_keys.length = st.first_keys := by
  intro ts
  induction ts with
  | nil => intro st; exact List.take_length st.first_keys
  | cons t ts ih =>
    intro st
    rw [List.foldl_cons]
    rcases scanStep_first_keys_extend strict tol st t with ⟨htake, hle⟩
    have h2 := ih (scanStep strict tol st t)
    have hmin : (List.foldl (scanStep strict tol) (scanStep strict tol st t)
          ts).first_keys.take st.first_keys.length =
        ((List.foldl (scanStep strict tol) (scanStep strict tol st t)
          ts).first_keys.take
            (scanStep strict tol st t).first_keys.length).take
          st.first_keys.length := by
      rw [List.take_take, Nat.min_eq_left hle]
    rw [hmin, h2, htake]

/-- C1: the representative scan of `compute_keep_and_delete_uris` processes
tracks by folding `scanStep` in playlist order, and at each step (a) a key
matches a representative exactly when the normalized titles and artist
tuples are equal and the rounded seconds differ from the representative's
anchor seconds by at most the tolerance; (b) the track is assigned to the
first matching representative in creation order; (c) when none matches, the
track founds a new representative anchored at its own key; (d) anchors of
existing representatives are never modified by later processing (never
re-anchored). -/
theorem claim_C1 (strict : Bool) (tol : Int) (st : ScanState) (t : Track) :
    (∀ rep : KeyFormat,
        repMatches tol (make_key t strict) rep = true ↔
          rep.1 = (make_key t strict).1 ∧
            rep.2.1 = (make_key t strict).2.1 ∧
            |(make_key t strict).2.2 - rep.2.2| ≤ tol) ∧
    (∀ i, findRepIdx tol (make_key t strict) st.first_keys = some i →
        i < st.first_keys.length ∧
          repMatches tol (make_key t strict)
              (st.first_keys.getD i default) = true ∧
          ∀ j, j < i →
            repMatches tol (make_key t strict)
                (st.first_keys.getD j default) = false) ∧
    (findRepIdx tol (make_key t strict) st.first_keys = none →
        (scanStep strict tol st t).first_keys =
          st.first_keys ++ [make_key t strict]) ∧
    (∀ ts : List Track,
        (List.foldl (scanStep strict tol) st ts).first_keys.take
            st.first_keys.length = st.first_keys) := by
  refine ⟨?_, ?_, ?_, fun ts => scanFold_first_keys_take strict tol ts st⟩
  · intro rep
    unfold repMatches within_tolerance
    simp only [Bool.and_eq_true, decide_eq_true_eq]
    rw [Int.abs_eq_natAbs]
    exact and_assoc
  · intro i h
    exact (findRepIdx_some_iff tol (make_key t strict) st.first_keys i).mp h
  · intro h
    simp [scanStep, h]

/-- A scan state with two representatives, used to witness C1. -/
def scanStateEx : ScanState :=
  { first_keys := [("a", ["x"], 0), ("b", ["x"], 10)]
    uris_by_key := [["u1"], ["u2"]]
    keeper_by_key := ["u1", "u2"] }

/-- A track whose key matches the second representative of `scanStateEx`
within tolerance 5 (seconds 11 against anchor 10). -/
def trackEx : Track :=
  { name := "b", artists := ["x"], album := "", uri := "u3",
    duration_ms := 11000, added_at := "t", playlist_idx := 2 }

/-- Witness for C1: at the concrete state and track, the scan assigns index
1, the second representative matches and the first does not. -/
theorem claim_C1_witness :
    repMatches 5 (make_key trackEx false)
        (scanStateEx.first_keys.getD 1 default) = true ∧
      repMatches 5 (make_key trackEx false)
        (scanStateEx.first_keys.getD 0 default) = false := by
  have h := (claim_C1 false 5 scanStateEx trackEx).2.1 1 rfl
  exact ⟨h.2.1, h.2.2 0 (by omega)⟩

/-! ## Claim C2 -/

/-- C2 counterexample: when the playlist scan order disagrees with the
`added_at` order, the URI placed in `keep_uris` is that of the first
occurrence in playlist order ("u1", added 2024), not the track with the
earliest `added_at` in the group ("u2", added 2023). -/
theorem claim_C2_counterexample :
    (compute_keep_and_delete_uris itemsAddedOutOfOrder false 5).1 = ["u1"] ∧
      (group_duplicates itemsAddedOutOfOrder false 5).map
          (fun g => g.tracks.map fun t => (t.uri, t.added_at)) =
        [[("u2", "2023-01-01T00:00:00Z"), ("u1", "2024-05-05T00:00:00Z")]] ∧
      ("u1" : String) ≠ "u2" :=
  ⟨rfl, rfl, by decide⟩

theorem charListLe_refl : ∀ as : List Char, charListLe as as = true := by
  intro as
  induction as with
  | nil => rfl
  | cons a as ih => simpa [charListLe] using ih

theorem scanStep_keeper_extend (strict : Bool) (tol : Int) (st : ScanState)
    (t : Track) :
    (scanStep strict tol st t).keeper_by_key.take st.keeper_by_key.length =
        st.keeper_by_key ∧
      st.keeper_by_key.length ≤
        (scanStep strict tol st t).keeper_by_key.length := by
  unfold scanStep
  cases h : findRepIdx tol (make_key t strict) st.first_keys with
  | none =>
    simp only [h]
    refine ⟨?_, by simp⟩
    exact List.take_left st.keeper_by_key [t.uri]
  | some i =>
    simp only [h]
    exact ⟨List.take_length st.keeper_by_key, le_refl _⟩

theorem scanFold_keeper_take (strict : Bool) (tol : Int) :
    ∀ (ts : List Track) (st : ScanState),
      (List.foldl (scanStep strict tol) st ts).keeper_by_key.take
          st.keeper_by_key.length = st.keeper_by_key := by
  intro ts
  induction ts with
  | nil => intro st; exact List.take_length st.keeper_by_key
  | cons t ts ih =>
    intro st
    rw [List.foldl_cons]
    rcases scanStep_keeper_extend strict tol st t with ⟨htake, hle⟩
    have h2 := ih (scanStep strict tol st t)
    have hmin : (List.foldl (scanStep strict tol) (scanStep strict tol st t)
          ts).keeper_by_key.take st.keeper_by_key.length =
        ((List.foldl (scanStep strict tol) (scanStep strict tol st t)
          ts).keeper_by_key.take
            (scanStep strict tol st t).keeper_by_key.length).take
          st.keeper_by_key.length := by
      rw [List.take_take, Nat.min_eq_left hle]
    rw [hmin, h2, htake]

/-- C2 (amended): every group produced by `group_duplicates` has its tracks
sorted ascending by `added_at` and its first track is minimal in `added_at`;
but the keeper URI recorded by the representative scan of
`compute_keep_and_delete_uris` is the URI of the representative's first
occurrence in playlist order (and is never changed by later processing),
which coincides with the earliest `added_at` only when the playlist order is
consistent with the `added_at` order. -/
theorem claim_C2 (items : List RawItem) (strict : Bool) (tol : Int) :
    (∀ g ∈ group_duplicates items strict tol,
        List.Sorted addedLe g.tracks ∧
          ∀ t ∈ g.tracks, addedLe g.tracks.headI t) ∧
    (∀ (st : ScanState) (t : Track),
        findRepIdx tol (make_key t strict) st.first_keys = none →
          (scanStep strict tol st t).keeper_by_key =
            st.keeper_by_key ++ [t.uri]) ∧
    (∀ (st : ScanState) (t : Track) (i : Nat),
        findRepIdx tol (make_key t strict) st.first_keys = some i →
          (scanStep strict tol st t).keeper_by_key = st.keeper_by_key) ∧
    (∀ (ts : List Track) (st : ScanState),
        (List.foldl (scanStep strict tol) st ts).keeper_by_key.take
            st.keeper_by_key.length = st.keeper_by_key) := by
  refine ⟨?_, ?_, ?_, scanFold_keeper_take strict tol⟩
  · intro g hg
    unfold group_duplicates at hg
    rw [List.mem_filterMap] at hg
    obtain ⟨p, _, hf⟩ := hg
    by_cases hlen : 1 < p.2.length
    · rw [if_pos hlen] at hf
      have hg' := Option.some.inj hf
      subst hg'
      refine ⟨List.sorted_insertionSort addedLe p.2, ?_⟩
      intro t ht
      cases hsort : (p.2.insertionSort addedLe) with
      | nil => simp [hsort] at ht
      | cons x rest =>
        have hs := List.sorted_insertionSort addedLe p.2
        rw [hsort] at hs ht
        rcases List.mem_cons.mp ht with rfl | hrest
        · simp only [List.headI]
          exact charListLe_refl _
        · simp only [List.headI]
          exact (List.sorted_cons.mp hs).1 t hrest
    · rw [if_neg hlen] at hf
      exact absurd hf (by simp)
  · intro st t h
    simp [scanStep, h]
  · intro st t i h
    simp [scanStep, h]

/-- The single duplicate group that `group_duplicates` produces on
`itemsAddedOutOfOrder`. -/
def groupAddedOutOfOrder : DuplicateGroup :=
  { key := ("a", ["x"], 0)
    tracks :=
      [{ name := "a", artists := ["x"], album := "Album", uri := "u2",
         duration_ms := 0, added_at := "2023-01-01T00:00:00Z",
         playlist_idx := 1 },
       { name := "a", artists := ["x"], album := "Album", uri := "u1",
         duration_ms := 0, added_at := "2024-05-05T00:00:00Z",
         playlist_idx := 0 }] }

/-- Witness for C2 (amended) at the concrete fixture: the produced group is
sorted by `added_at`, and on the empty state the scan appends the incoming
track's URI as keeper. -/
theorem claim_C2_witness :
    List.Sorted addedLe groupAddedOutOfOrder.tracks ∧
      (scanStep false 5 ⟨[], [], []⟩ trackEx).keeper_by_key = ["u3"] := by
  have heq : group_duplicates itemsAddedOutOfOrder false 5 =
      [groupAddedOutOfOrder] := rfl
  have hmem : groupAddedOutOfOrder ∈
      group_duplicates itemsAddedOutOfOrder false 5 := by
    rw [heq]
    exact List.mem_singleton_self _
  refine ⟨((claim_C2 itemsAddedOutOfOrder false 5).1 _ hmem).1, ?_⟩
  exact (claim_C2 itemsAddedOutOfOrder false 5).2.1 ⟨[], [], []⟩ trackEx rfl

/-! ## Set-model lemmas and the scan-state invariant -/

theorem mem_setAdd {l : List String} {u v : String} :
    v ∈ setAdd l u ↔ v ∈ l ∨ v = u := by
  unfold setAdd
  by_cases h : u ∈ l
  · simp only [if_pos h]
    constructor
    · exact Or.inl
    · rintro (hv | rfl)
      · exact hv
      · exact h
  · simp [if_neg h]

theorem nodup_setAdd {l : List String} (u : String) (h : l.Nodup) :
    (setAdd l u).Nodup := by
  unfold setAdd
  by_cases hm : u ∈ l
  · simpa [hm] using h
  · simp only [if_neg hm]
    rw [← List.concat_eq_append]
    exact List.Nodup.concat hm h

theorem mem_foldl_setAdd (l : List String) :
    ∀ (acc : List String) (v : String),
      v ∈ l.foldl setAdd acc ↔ v ∈ acc ∨ v ∈ l := by
  induction l with
  | nil => intro acc v; simp
  | cons u l ih =>
    intro acc v
    rw [List.foldl_cons, ih]
    rw [mem_setAdd]
    constructor
    · rintro ((hv | rfl) | hv)
      · exact Or.inl hv
      · exact Or.inr (List.mem_cons_self _ _)
      · exact Or.inr (List.mem_cons_of_mem _ hv)
    · rintro (hv | hv)
      · exact Or.inl (Or.inl hv)
      · rcases List.mem_cons.mp hv with rfl | hv'
        · exact Or.inl (Or.inr rfl)
        · exact Or.inr hv'

theorem nodup_foldl_setAdd (l : List String) :
    ∀ acc : List String, acc.Nodup → (l.foldl setAdd acc).Nodup := by
  induction l with
  | nil => intro acc h; exact h
  | cons u l ih =>
    intro acc h
    rw [List.foldl_cons]
    exact ih _ (nodup_setAdd u h)

/-- The invariant maintained by the representative scan: the three lists run
in parallel and each representative's accumulated URI set contains its
keeper's URI. -/
def ScanInv (st : ScanState) : Prop :=
  st.uris_by_key.length = st.first_keys.length ∧
  st.keeper_by_key.length = st.first_keys.length ∧
  ∀ i, i < st.first_keys.length →
    st.keeper_by_key.getD i "" ∈ st.uris_by_key.getD i []

theorem scanStep_inv (strict : Bool) (tol : Int) (st : ScanState) (t : Track)
    (h : ScanInv st) : ScanInv (scanStep strict tol st t) := by
  obtain ⟨hu, hk, hmem⟩ := h
  unfold scanStep
  cases hf : findRepIdx tol (make_key t strict) st.first_keys with
  | none =>
    simp only [hf]
    refine ⟨by simp [hu], by simp [hk], ?_⟩
    intro i hi
    simp only [List.length_append, List.length_singleton] at hi
    by_cases hlt : i < st.first_keys.length
    · rw [List.getD_append _ _ _ _ (show i < st.keeper_by_key.length by omega),
        List.getD_append _ _ _ _ (show i < st.uris_by_key.length by omega)]
      exact hmem i hlt
    · have hieq : i = st.first_keys.length := by omega
      subst hieq
      rw [List.getD_append_right _ _ _ _ (le_of_eq hk),
        List.getD_append_right _ _ _ _ (le_of_eq hu)]
      simp [hk, hu]
  | some i =>
    simp only [hf]
    have hibound : i < st.first_keys.length :=
      ((findRepIdx_some_iff tol (make_key t strict) st.first_keys i).mp hf).1
    refine ⟨by simp [hu], hk, ?_⟩
    intro j hj
    by_cases hij : j = i
    · subst hij
      have : (st.uris_by_key.set j
            (setAdd (st.uris_by_key.getD j []) t.uri)).getD j [] =
          setAdd (st.uris_by_key.getD j []) t.uri := by
        rw [List.getD_eq_getElem?_getD, List.getElem?_set_self, Option.getD_some]
        omega
      rw [this, mem_setAdd]
      exact Or.inl (hmem j hj)
    · have : (st.uris_by_key.set i
            (setAdd (st.uris_by_key.getD i []) t.uri)).getD j [] =
          st.uris_by_key.getD j [] := by
        rw [List.getD_eq_getElem?_getD, List.getElem?_set_ne (fun e => hij e.symm),
          ← List.getD_eq_getElem?_getD]
      rw [this]
      exact hmem j hj

theorem scanReps_inv (strict : Bool) (tol : Int) (tracks : List Track) :
    ScanInv (scanReps strict tol tracks) := by
  unfold scanReps
  have base : ScanInv ⟨[], [], []⟩ := ⟨rfl, rfl, fun i hi => absurd hi (by simp)⟩
  generalize hst : (⟨[], [], []⟩ : ScanState) = st
  rw [hst] at base
  clear hst
  induction tracks generalizing st with
  | nil => exact base
  | cons t ts ih =>
    rw [List.foldl_cons]
    exact ih _ (scanStep_inv strict tol st t base)

theorem mem_delete_fold (counts : List Nat) (uris : List (List String)) :
    ∀ (idxs : List Nat) (acc : List String) (v : String),
      v ∈ idxs.foldl
          (fun acc i =>
            if 1 < counts.getD i 0 then (uris.getD i []).foldl setAdd acc
            else acc)
          acc ↔
        v ∈ acc ∨ ∃ i ∈ idxs, 1 < counts.getD i 0 ∧ v ∈ uris.getD i [] := by
  intro idxs
  induction idxs with
  | nil => intro acc v; simp
  | cons i idxs ih =>
    intro acc v
    rw [List.foldl_cons]
    by_cases hc : 1 < counts.getD i 0
    · rw [if_pos hc, ih, mem_foldl_setAdd]
      constructor
      · rintro ((hv | hv) | ⟨j, hj, hcj, hvj⟩)
        · exact Or.inl hv
        · exact Or.inr ⟨i, List.mem_cons_self _ _, hc, hv⟩
        · exact Or.inr ⟨j, List.mem_cons_of_mem _ hj, hcj, hvj⟩
      · rintro (hv | ⟨j, hj, hcj, hvj⟩)
        · exact Or.inl (Or.inl hv)
        · rcases List.mem_cons.mp hj with rfl | hj'
          · exact Or.inl (Or.inr hvj)
          · exact Or.inr ⟨j, hj', hcj, hvj⟩
    · rw [if_neg hc, ih]
      constructor
      · rintro (hv | ⟨j, hj, hcj, hvj⟩)
        · exact Or.inl hv
        · exact Or.inr ⟨j, List.mem_cons_of_mem _ hj, hcj, hvj⟩
      · rintro (hv | ⟨j, hj, hcj, hvj⟩)
        · exact Or.inl hv
        · rcases List.mem_cons.mp hj with rfl | hj'
          · exact absurd hcj hc
          · exact Or.inr ⟨j, hj', hcj, hvj⟩

theorem nodup_delete_fold (counts : List Nat) (uris : List (List String)) :
    ∀ (idxs : List Nat) (acc : List String), acc.Nodup →
      (idxs.foldl
          (fun acc i =>
            if 1 < counts.getD i 0 then (uris.getD i []).foldl setAdd acc
            else acc)
          acc).Nodup := by
  intro idxs
  induction idxs with
  | nil => intro acc h; exact h
  | cons i idxs ih =>
    intro acc h
    rw [List.foldl_cons]
    by_cases hc : 1 < counts.getD i 0
    · rw [if_pos hc]
      exact ih _ (nodup_foldl_setAdd _ _ h)
    · rw [if_neg hc]
      exact ih _ h

/-! ## Claim C10 -/

/-- C10: every URI in `keep_uris` also occurs in `delete_uris` — the keeper
URI of each duplicated representative belongs to that representative's
accumulated URI set, all of which is scheduled for deletion. -/
theorem claim_C10 (items : List RawItem) (strict : Bool) (tol_secs : Int) :
    ∀ u ∈ (compute_keep_and_delete_uris items strict tol_secs).1,
      u ∈ (compute_keep_and_delete_uris items strict tol_secs).2 := by
  intro u hu
  unfold compute_keep_and_delete_uris at hu ⊢
  rw [List.mem_filterMap] at hu
  obtain ⟨i, hrange, hif⟩ := hu
  rw [mem_delete_fold]
  by_cases hc : 1 <
      (countFor strict tol_secs
          (scanReps strict tol_secs (parseTracks items)).first_keys
          (parseTracks items)).getD i 0
  · rw [if_pos hc] at hif
    have hu' := Option.some.inj hif
    have hinv := scanReps_inv strict tol_secs (parseTracks items)
    have hibound : i <
        (scanReps strict tol_secs (parseTracks items)).first_keys.length :=
      List.mem_range.mp hrange
    refine Or.inr ⟨i, hrange, hc, ?_⟩
    rw [← hu']
    exact hinv.2.2 i hibound
  · rw [if_neg hc] at hif
    exact absurd hif (by simp)

/-- Witness for C10: on the feat/remaster fixture the keeper URI is in the
keep list and, by the theorem, also in the delete list. -/
theorem claim_C10_witness :
    "spotify:track:111" ∈
      (compute_keep_and_delete_uris itemsFeatRemaster false 2).2 :=
  claim_C10 itemsFeatRemaster false 2 "spotify:track:111"
    (by rw [(rfl : (compute_keep_and_delete_uris itemsFeatRemaster false 2).1 =
        ["spotify:track:111"])]; exact List.mem_singleton_self _)

/-! ## Claim C5 -/

/-- C5 counterexample: `keep_uris` is not URI-deduplicated — when the same
URI is the first occurrence of two different representative keys, it is
emitted once per duplicated representative. -/
theorem claim_C5_counterexample :
    (compute_keep_and_delete_uris itemsSharedKeeperUri false 5).1 =
        ["u", "u"] ∧
      ¬ (compute_keep_and_delete_uris itemsSharedKeeperUri false 5).1.Nodup :=
  ⟨rfl, by decide⟩

/-- C5 (amended): `delete_uris` is URI-deduplicated and contains exactly the
URIs accumulated under duplicated representatives (its order is a set
iteration in the source, not the first-encounter order); `keep_uris` lists
the keeper of each duplicated representative in representative-creation
order and may contain the same URI more than once. -/
theorem claim_C5 (items : List RawItem) (strict : Bool) (tol_secs : Int) :
    (compute_keep_and_delete_uris items strict tol_secs).2.Nodup ∧
    (∀ u, u ∈ (compute_keep_and_delete_uris items strict tol_secs).2 ↔
        ∃ i < (scanReps strict tol_secs (parseTracks items)).first_keys.length,
          1 < (countFor strict tol_secs
              (scanReps strict tol_secs (parseTracks items)).first_keys
              (parseTracks items)).getD i 0 ∧
            u ∈ (scanReps strict tol_secs
                (parseTracks items)).uris_by_key.getD i []) ∧
    (compute_keep_and_delete_uris items strict tol_secs).1 =
      (List.range
          (scanReps strict tol_secs (parseTracks items)).first_keys.length).filterMap
        fun i =>
          if 1 < (countFor strict tol_secs
              (scanReps strict tol_secs (parseTracks items)).first_keys
              (parseTracks items)).getD i 0 then
            some ((scanReps strict tol_secs
                (parseTracks items)).keeper_by_key.getD i "")
          else none := by
  refine ⟨?_, ?_, rfl⟩
  · unfold compute_keep_and_delete_uris
    exact nodup_delete_fold _ _ _ [] List.nodup_nil
  · intro u
    unfold compute_keep_and_delete_uris
    rw [mem_delete_fold]
    simp only [List.not_mem_nil, false_or, List.mem_range]

/-! ## Claim C3 -/

/-- A trace of eleven successful pages, each carrying one item and a `next`
link. -/
def traceElevenPages : List PageResponse :=
  (List.range 11).map fun n =>
    { status := 200, items := [{ added_at := some (toString n) }],
      next := some "https://api.example/next" }

/-- A trace of ten consecutive 429 responses with no `Retry-After` header. -/
def traceTen429s : List PageResponse :=
  List.replicate 10 { status := 429 }

/-- A trace with one 429 (Retry-After 3) followed by two successful pages. -/
def traceRetryThenPages : List PageResponse :=
  [{ status := 429, retry_after := some 3 },
   { status := 200, items := [{ added_at := some "a" }, { added_at := some "b" }],
     next := some "https://api.example/next" },
   { status := 200, items := [{ added_at := some "c" }], next := none }]

/-- C3: evaluation of `iter_playlist_items` at the failing inputs.  The loop
guard `retry_counter < 10` counts every request — successful page fetches
included — so a read of eleven successful pages yields only the first ten
pages' items and the generator then ends silently (`exhaustedLoop`), raising
nothing; likewise ten consecutive 429s sleep the default 1 second each and
then end the generator silently instead of failing with a rate-limit error.
The intended behavior does hold below the bound: a 429 sleeps the
server-specified delay, the same page request is reissued, and a multi-page
read follows `next` links, yielding every item. -/
theorem claim_C3 :
    (iterPlaylistItems traceElevenPages).1.length = 10 ∧
    (iterPlaylistItems traceElevenPages).2.2 = IterOutcome.exhaustedLoop ∧
    (traceElevenPages.map fun r => r.items.length).sum = 11 ∧
    (iterPlaylistItems traceTen429s).2.2 = IterOutcome.exhaustedLoop ∧
    (iterPlaylistItems traceTen429s).2.1 = List.replicate 10 1 ∧
    iterPlaylistItems traceRetryThenPages =
      ([{ added_at := some "a" }, { added_at := some "b" },
        { added_at := some "c" }], [3], IterOutcome.finished) :=
  ⟨rfl, rfl, rfl, rfl, rfl, rfl⟩

/-! ## Claim C4 -/

theorem chunk100_bounded_aux :
    ∀ (n : Nat) (l : List String), l.length ≤ n →
      (∀ c ∈ chunk100 l, c.length ≤ 100) ∧ (chunk100 l).flatten = l := by
  intro n
  induction n with
  | zero =>
    intro l h
    have hl : l = [] := List.eq_nil_of_length_eq_zero (Nat.le_zero.mp h)
    subst hl
    rw [chunk100]
    exact ⟨fun c hc => absurd hc (by simp), rfl⟩
  | succ n ih =>
    intro l h
    by_cases he : l = []
    · subst he
      rw [chunk100]
      exact ⟨fun c hc => absurd hc (by simp), rfl⟩
    · rw [chunk100, if_neg he]
      have hdrop : (l.drop 100).length ≤ n := by
        have h1 : 1 ≤ l.length := by
          cases l with
          | nil => exact absurd rfl he
          | cons a l => simp
        simp only [List.length_drop]
        omega
      rcases ih (l.drop 100) hdrop with ⟨ihb, ihf⟩
      constructor
      · intro c hc
        rcases List.mem_cons.mp hc with rfl | hc'
        · simp
        · exact ihb c hc'
      · simp only [List.flatten_cons, ihf]
        exact List.take_append_drop 100 l

/-- C4 counterexample: the re-add step does not chunk — 101 keep URIs make
`add_items` raise `ValueError` instead of succeeding. -/
theorem claim_C4_counterexample :
    (clearDupesMutation [] (List.replicate 101 "u")).2 =
      Except.error "add_items accepts at most 100 URIs" := rfl

/-- C4 (amended): the mutation step first removes the deduplicated non-empty
delete URIs in DELETE calls of at most 100 URIs each (covering every such
URI), and then re-adds the keep URIs in one single POST that accepts at most
100 URIs and fails with `ValueError` beyond that — the re-add is not
chunked. -/
theorem claim_C4 (delete_uris keep_uris : List String) :
    (∀ c ∈ (clearDupesMutation delete_uris keep_uris).1, c.length ≤ 100) ∧
    (clearDupesMutation delete_uris keep_uris).1.flatten =
      dedupNonEmpty delete_uris ∧
    (keep_uris = [] →
      (clearDupesMutation delete_uris keep_uris).2 = Except.ok []) ∧
    (keep_uris ≠ [] → keep_uris.length ≤ 100 →
      (clearDupesMutation delete_uris keep_uris).2 = Except.ok [keep_uris]) ∧
    (100 < keep_uris.length →
      (clearDupesMutation delete_uris keep_uris).2 =
        Except.error "add_items accepts at most 100 URIs") := by
  have hchunk := chunk100_bounded_aux (dedupNonEmpty delete_uris).length
    (dedupNonEmpty delete_uris) (le_refl _)
  refine ⟨?_, ?_, ?_, ?_, ?_⟩
  · intro c hc
    unfold clearDupesMutation at hc
    by_cases hd : delete_uris = []
    · rw [if_pos hd] at hc
      exact absurd hc (by simp)
    · rw [if_neg hd] at hc
      exact hchunk.1 c hc
  · unfold clearDupesMutation
    by_cases hd : delete_uris = []
    · rw [if_pos hd, hd]
      rfl
    · rw [if_neg hd]
      exact hchunk.2
  · intro hk
    simp [clearDupesMutation, hk]
  · intro hk hlen
    simp [clearDupesMutation, add_items, hk, Nat.not_lt.mpr hlen, Except.map]
  · intro hlen
    have hk : keep_uris ≠ [] := by
      intro h
      rw [h] at hlen
      simp at hlen
    simp [clearDupesMutation, add_items, hk, hlen, Except.map]

/-- Witness for C4 (amended) at concrete inputs: three URIs with a duplicate
and an empty string dedup to one DELETE chunk, and a two-URI keep list is
re-added in one call. -/
theorem claim_C4_witness :
    (clearDupesMutation ["a", "a", "", "b"] ["k1", "k2"]).1.flatten =
        dedupNonEmpty ["a", "a", "", "b"] ∧
      (clearDupesMutation ["a", "a", "", "b"] ["k1", "k2"]).2 =
        Except.ok [["k1", "k2"]] :=
  ⟨(claim_C4 ["a", "a", "", "b"] ["k1", "k2"]).2.1,
   (claim_C4 ["a", "a", "", "b"] ["k1", "k2"]).2.2.2.1 (by decide) (by decide)⟩

/-! ## Claim C8 -/

theorem parseTracksFrom_cons (start : Nat) (x : RawItem) (items : List RawItem) :
    parseTracksFrom start (x :: items) =
      match parseItem start x with
      | some t => t :: parseTracksFrom (start + 1) items
      | none => parseTracksFrom (start + 1) items := by
  cases h : parseItem start x with
  | some t => simp [parseTracksFrom, List.enumFrom, List.filterMap_cons, h]
  | none => simp [parseTracksFrom, List.enumFrom, List.filterMap_cons, h]

/-- C8: the resolver's record extraction is total on raw records.  A record
that is track-typed but otherwise lacks every field parses to a `Track` with
every missing field defaulted to the empty string, zero or the empty list;
parsing distributes over the list, so a malformed record in the middle
leaves all other records covered; records whose `track` object is absent are
skipped without aborting. -/
theorem claim_C8 :
    (∀ n : Nat,
        parseItem n { added_at := none, track := some { type := some "track" } } =
          some { name := "", artists := [], album := "", uri := "",
                 duration_ms := 0, added_at := "", playlist_idx := n }) ∧
    (∀ (start : Nat) (xs ys : List RawItem),
        parseTracksFrom start (xs ++ ys) =
          parseTracksFrom start xs ++ parseTracksFrom (start + xs.length) ys) ∧
    (∀ (n : Nat) (item : RawItem), item.track = none → parseItem n item = none) := by
  refine ⟨fun n => rfl, ?_, ?_⟩
  · intro start xs
    induction xs generalizing start with
    | nil => intro ys; simp [parseTracksFrom]
    | cons x xs ih =>
      intro ys
      rw [List.cons_append, parseTracksFrom_cons, parseTracksFrom_cons]
      cases h : parseItem start x with
      | some t =>
        simp only [ih (start + 1) ys, List.cons_append, List.length_cons]
        have : start + 1 + xs.length = start + (xs.length + 1) := by omega
        rw [this]
      | none =>
        simp only [ih (start + 1) ys, List.length_cons]
        have : start + 1 + xs.length = start + (xs.length + 1) := by omega
        rw [this]
  · intro n item h
    simp [parseItem, h]

/-- Witness for C8: the all-defaults record parses to the default track, and
a record with no `track` object is skipped. -/
theorem claim_C8_witness :
    parseItem 0 { added_at := none, track := some { type := some "track" } } =
        some { name := "", artists := [], album := "", uri := "",
               duration_ms := 0, added_at := "", playlist_idx := 0 } ∧
      parseItem 0 ({} : RawItem) = none :=
  ⟨claim_C8.1 0, claim_C8.2.2 0 {} rfl⟩

end SpotifyTools
